import Mathlib

/-!
Verification of the chunked long-audio separation pipeline of
`src/backend/audio_processor.py` (class `AudioProcessor`).

The shallow embedding below translates `AudioProcessor._separate_chunks`
(and the thin wrapper `AudioProcessor.separate_tracks`) into Lean.
Sample positions and lengths are Python integers, modelled as `Int`.
Audio samples are modelled as rationals (`ℚ`); the external Demucs model
(`apply_model`) is an opaque parameter `Model` mapping a window, given by
its absolute half-open sample range, to either a per-source, per-channel,
per-position sample function, or `none` (the call raises).
Wall-clock timing and logging are ghosts with no effect on control flow
and are omitted; the loop is given explicit fuel, and `none` marks a run
that would not have finished within the fuel.
-/

namespace AudioProc

/-- Python index normalisation for a slice bound on a sequence of length `L`:
negative indices count from the end and the result is clamped to `[0, L]`. -/
def pyIdx (L i : Int) : Int :=
  if i < 0 then max (L + i) 0 else min i L

/-- Length of the Python slice `x[s:e]` on a sequence of length `L`. -/
def sliceLen (L s e : Int) : Int :=
  max 0 (pyIdx L e - pyIdx L s)

/-- Ceiling of the exact quotient `a / b` (`b ≠ 0`), as computed by
`int(np.ceil(a / b))` in the source (line 368). -/
def pyCeilDiv (a b : Int) : Int :=
  -(Int.fdiv (-a) b)

/-- The external separation capability: `apply_model` on the window
`wav_tensor[:, s:e]`, returning `some` per-(source, channel, local position)
samples, or `none` if the call raises. -/
def Model : Type := Int → Int → Option (Int → Int → Int → ℚ)

/-- State of the chunking loop of `_separate_chunks` (lines 407-568),
together with ghost fields recording the observable history:
model calls, committed effective ranges, progress-callback emissions,
computed progress ratios, and the iteration count. -/
structure St where
  segStart : Int
  segCount : Int
  lastStart : Int
  noProg : Int
  curProgressN : Int
  buf : Int → Int → Int → ℚ
  committed : List (Int × Int)
  calls : List (Int × Int)
  emits : List ℚ
  ratios : List ℚ
  iters : Nat

/-- Result of the stall detection block (lines 432-449):
new `segment_start`, new `segment_end`, new `consecutive_no_progress`,
whether a forced jump happened, and whether the loop breaks. -/
structure StallOut where
  s : Int
  e : Int
  np : Int
  jumped : Bool
  brk : Bool

/-- Lines 429-449: compute `segment_end`, detect lack of progress, and
force a jump of `2 * seg_length` after 3 consecutive stalled iterations;
break if the jump lands within `seg_length // 4` of the end. -/
def stallCheck (total seg segStart lastStart noProg : Int) : StallOut :=
  if segStart = lastStart then
    if noProg + 1 ≥ 3 then
      let s2 := min (segStart + seg * 2) total
      ⟨s2, min (s2 + seg) total, 0, true, decide (s2 ≥ total - Int.fdiv seg 4)⟩
    else
      ⟨segStart, min (segStart + seg) total, noProg + 1, false, false⟩
  else
    ⟨segStart, min (segStart + seg) total, 0, false, false⟩

/-- The skip advance used by every `continue` of the loop body
(lines 467, 482, 498): move the playhead one stride forward, capped at
`total_length`. -/
def advanceSkip (total stride : Int) (st : St) : St :=
  { st with segStart := min (st.segStart + stride) total }

/-- Lines 501-517: copy the effective region of the current window into
the output buffer. Slice bounds are normalised as Python does; a shape
mismatch between destination and source slices is the caught exception of
line 511, which skips the copy. -/
def copyEffective (total : Int) (w : Int → Int → Int → ℚ)
    (segLen ovS ovE effS effE : Int) (st : St) : St :=
  let effLen := min (segLen - ovS - ovE) (effE - effS)
  if 0 < effLen then
    let dS := pyIdx total effS
    let dE := pyIdx total effE
    let sS := pyIdx segLen ovS
    let sE := pyIdx segLen (ovS + effLen)
    if dE - dS = sE - sS then
      { st with
        buf := fun src ch q =>
          if dS ≤ q ∧ q < dE then w src ch (sS + (q - dS)) else st.buf src ch q,
        committed := st.committed ++ [(effS, effE)] }
    else
      st
  else
    st

/-- Lines 539-563: progress ratio from the advanced playhead `s2`, the
committed-segment counter, and the throttled progress callback.
Every progress quantity of the source is a multiple of
`1 / total_length`, so the throttle comparison of line 561,
`abs(new_progress - current_progress) >= 1`, is carried out here exactly,
multiplied through by `total_length` (which is positive whenever an
iteration runs): `current_progress` is stored scaled, as
`curProgressN / total`. -/
def progressUpdate (total s2 : Int) (st : St) : St :=
  let ratio := min ((s2 : ℚ) / (total : ℚ)) 1
  let st4 : St :=
    { st with segStart := s2, ratios := st.ratios ++ [ratio],
              segCount := st.segCount + 1 }
  let newProgressN := min (80 * s2) (80 * total)
  let d := newProgressN - st4.curProgressN
  if total ≤ (if d < 0 then -d else d) then
    { st4 with curProgressN := newProgressN,
               emits := st4.emits ++ [min (ratio * 80) 80] }
  else
    st4

/-- Lines 485-527 and 539-563: compute the effective region of the
processed window `[s, e)`, skip it when degenerate, otherwise copy it,
advance the playhead (with the forced minimum advance of line 524), and
update progress. -/
def commitAndAdvance (total seg ov : Int) (w : Int → Int → Int → ℚ)
    (s e : Int) (st : St) : St :=
  let ovS := if s = 0 then 0 else ov
  let ovE := if e = total then 0 else ov
  let effS := s + ovS
  let effE := e - ovE
  if effE ≤ effS then
    advanceSkip total (seg - ov) st
  else
    let st3 := copyEffective total w (sliceLen total s e) ovS ovE effS effE st
    let ns0 := s + (seg - ov)
    let ns := if ns0 ≤ s then s + max 1 (Int.fdiv seg 4) else ns0
    progressUpdate total (min ns total) st3

/-- Lines 462-568 given the stall-checked window `[s, e)`: skip an empty
segment (line 465), call the model and skip the window on failure
(lines 474-483), otherwise stitch and advance. -/
def processWindow (m : Model) (total seg ov s e : Int) (st : St) : St :=
  if sliceLen total s e ≤ 0 then
    advanceSkip total (seg - ov) st
  else
    let st2 : St := { st with calls := st.calls ++ [(s, e)] }
    match m s e with
    | none => advanceSkip total (seg - ov) st2
    | some w => commitAndAdvance total seg ov w s e st2

/-- One iteration of the chunking `while` loop (lines 424-568).
Returns the successor state and `true` iff the iteration executed `break`. -/
def loopIter (m : Model) (total seg ov : Int) (st : St) : St × Bool :=
  let so := stallCheck total seg st.segStart st.lastStart st.noProg
  if so.brk then
    ({ st with segStart := so.s, noProg := so.np, iters := st.iters + 1 }, true)
  else
    (processWindow m total seg ov so.s so.e
      { st with segStart := so.s, noProg := so.np, lastStart := so.s,
                iters := st.iters + 1 }, false)

/-- The chunking `while` loop (line 424), with explicit fuel;
`none` means the fuel ran out before the loop finished. -/
def loop (m : Model) (total seg ov maxSeg : Int) : Nat → St → Option St
  | 0, _ => none
  | Nat.succ fuel, st =>
    if st.segStart < total ∧ st.segCount < maxSeg then
      match loopIter m total seg ov st with
      | (st', true) => some st'
      | (st', false) => loop m total seg ov maxSeg fuel st'
    else
      some st

/-- The exception kinds `_separate_chunks` can let escape:
the `ZeroDivisionError` from line 368 when the stride is zero, and a
model exception propagating from the direct path (line 353) or the
dimension probe (line 385). -/
inductive PyErr where
  | zeroDiv
  | modelErr
deriving DecidableEq

/-- An escaped exception, together with the model calls made before it. -/
structure Failure where
  err : PyErr
  callsMade : List (Int × Int)
deriving DecidableEq

/-- The observable outcome of a completed `_separate_chunks` call. -/
structure Outcome where
  output : Int → Int → Int → ℚ
  calls : List (Int × Int)
  emits : List ℚ
  committed : List (Int × Int)
  segCount : Int
  finalStart : Int
  iters : Nat
  ratios : List ℚ

/-- All-zero output buffer (`torch.zeros`, line 403). -/
def initBuf : Int → Int → Int → ℚ := fun _ _ _ => 0

/-- Loop state at line 424, after the probe call was recorded
(lines 407-420). -/
def initSt (probeEnd : Int) : St :=
  { segStart := 0, segCount := 0, lastStart := -1, noProg := 0, curProgressN := 0,
    buf := initBuf, committed := [], calls := [(0, probeEnd)], emits := [],
    ratios := [], iters := 0 }

/-- Package a final loop state as an outcome. -/
def mkOutcome (st : St) : Outcome :=
  ⟨st.buf, st.calls, st.emits, st.committed, st.segCount, st.segStart,
   st.iters, st.ratios⟩

/-- `AudioProcessor._separate_chunks` (lines 317-580): direct path when the
signal fits one window (lines 341-362), otherwise stride computation
(lines 365-368), dimension probe (lines 374-398) and the chunking loop. -/
def separateChunks (m : Model) (total seg ov : Int) (fuel : Nat) :
    Option (Except Failure Outcome) :=
  if total ≤ seg then
    match m 0 total with
    | none => some (Except.error ⟨PyErr.modelErr, [(0, total)]⟩)
    | some w =>
      some (Except.ok ⟨w, [(0, total)], [10, 80], [], 0, 0, 0, []⟩)
  else
    let stride := seg - ov
    if stride = 0 then
      some (Except.error ⟨PyErr.zeroDiv, []⟩)
    else
      let actualNum := pyCeilDiv (total - ov) stride
      let maxSeg := min (actualNum * 2) 1000
      let probeEnd := min seg total
      match m 0 probeEnd with
      | none => some (Except.error ⟨PyErr.modelErr, [(0, probeEnd)]⟩)
      | some _ =>
        match loop m total seg ov maxSeg fuel (initSt probeEnd) with
        | none => none
        | some st => some (Except.ok (mkOutcome st))

/-- The `max_segments` cap of line 413 for a chunking-mode call. -/
def maxSegOf (total seg ov : Int) : Int :=
  min (pyCeilDiv (total - ov) (seg - ov) * 2) 1000

/-- `AudioProcessor.separate_tracks` around the separation phase
(lines 153-315): every escaped exception is caught at line 313 and turned
into `None`; a completed separation returns the outcome. The outer `none`
again marks fuel exhaustion. -/
def separateTracks (m : Model) (total seg ov : Int) (fuel : Nat) :
    Option (Option Outcome) :=
  match separateChunks m total seg ov fuel with
  | none => none
  | some (Except.error _) => some none
  | some (Except.ok o) => some (some o)

/-- Progress values passed to the callback during the export phase
(lines 257-287): `80 + (i+1) * (20 / total_sources)`, capped at 100. -/
def exportEmits (totalSources : Nat) : List ℚ :=
  (List.range totalSources).map fun i =>
    min (80 + ((i : ℚ) + 1) * (20 / (totalSources : ℚ))) 100

/-! ### Projections used to state claims about a run. -/

/-- Whether a run finished within its fuel. -/
def runIsSome (r : Option (Except Failure Outcome)) : Bool :=
  r.isSome

/-- Whether a run finished and returned an output (did not raise). -/
def runIsOk (r : Option (Except Failure Outcome)) : Bool :=
  match r with
  | some (Except.ok _) => true
  | _ => false

/-- Iteration count of a successful run. -/
def runIters (r : Option (Except Failure Outcome)) : Nat :=
  match r with
  | some (Except.ok o) => o.iters
  | _ => 0

/-- Committed effective ranges of a successful run. -/
def runCommitted (r : Option (Except Failure Outcome)) : List (Int × Int) :=
  match r with
  | some (Except.ok o) => o.committed
  | _ => []

/-- Model calls of a successful run. -/
def runCalls (r : Option (Except Failure Outcome)) : List (Int × Int) :=
  match r with
  | some (Except.ok o) => o.calls
  | _ => []

/-- Progress emissions of a successful run. -/
def runEmits (r : Option (Except Failure Outcome)) : List ℚ :=
  match r with
  | some (Except.ok o) => o.emits
  | _ => []

/-- Progress ratios of a successful run. -/
def runRatios (r : Option (Except Failure Outcome)) : List ℚ :=
  match r with
  | some (Except.ok o) => o.ratios
  | _ => []

/-- Committed segment count of a successful run. -/
def runSegCount (r : Option (Except Failure Outcome)) : Int :=
  match r with
  | some (Except.ok o) => o.segCount
  | _ => 0

/-- Final playhead position of a successful run. -/
def runFinalStart (r : Option (Except Failure Outcome)) : Int :=
  match r with
  | some (Except.ok o) => o.finalStart
  | _ => 0

/-- Output buffer of a successful run (zero if the run failed). -/
def runOutput (r : Option (Except Failure Outcome)) : Int → Int → Int → ℚ :=
  match r with
  | some (Except.ok o) => o.output
  | _ => initBuf

/-- Whether `separate_tracks` reported overall failure (returned `None`). -/
def overallFailed (r : Option (Option Outcome)) : Bool :=
  match r with
  | some none => true
  | _ => false

/-! ### Concrete models used as test inputs. -/

/-- A model that always succeeds and returns constant samples. -/
def mOnes : Model := fun _ _ => some fun _ _ _ => 1

/-- A model that raises exactly on windows starting at sample 0. -/
def mFailAt0 : Model := fun s _ =>
  if s = 0 then none else some fun _ _ _ => 1

/-! ### Predicates used in claim statements. -/

/-- A list of half-open ranges is ordered left to right without overlap,
and every range lies inside `[0, total)` and is proper. -/
def rangesOK (total : Int) (l : List (Int × Int)) : Prop :=
  List.Pairwise (fun a b : Int × Int => a.2 ≤ b.1) l ∧
    ∀ q ∈ l, 0 ≤ q.1 ∧ q.1 < q.2 ∧ q.2 ≤ total

/-- `covers l a b`: the ranges of `l` tile `[a, b)` exactly, in order,
with no gap and no overlap. -/
def covers : List (Int × Int) → Int → Int → Prop
  | [], a, b => a = b
  | q :: l, a, b => q.1 = a ∧ a < q.2 ∧ covers l q.2 b

/-- A position is inside one of the listed ranges. -/
def inRanges (l : List (Int × Int)) (p : Int) : Prop :=
  ∃ q ∈ l, q.1 ≤ p ∧ p < q.2

instance (l : List (Int × Int)) (p : Int) : Decidable (inRanges l p) :=
  inferInstanceAs (Decidable (∃ q ∈ l, q.1 ≤ p ∧ p < q.2))

/-- Invariant of the chunking loop, for a configuration with
`0 ≤ ov < seg < total`: playhead bounds, strict progress over the last
iteration, well-formed committed ranges that stay behind the playhead,
untouched buffer positions still zero, monotone bounded progress ratios,
progress emissions inside the separation band, and well-formed model
calls. -/
def Inv (total ov : Int) (st : St) : Prop :=
  0 ≤ st.segStart ∧ st.segStart ≤ total ∧ st.lastStart < st.segStart ∧
  rangesOK total st.committed ∧
  (∀ q ∈ st.committed, q.2 ≤ st.segStart ∨ total ≤ st.segStart + ov) ∧
  (∀ src ch pos, ¬ inRanges st.committed pos → st.buf src ch pos = 0) ∧
  (∀ r ∈ st.ratios, r ≤ min ((st.segStart : ℚ) / (total : ℚ)) 1) ∧
  List.Chain' (· ≤ ·) st.ratios ∧
  (∀ x ∈ st.emits, x ≤ 80) ∧
  (∀ c ∈ st.calls, 0 ≤ c.1 ∧ c.1 < c.2 ∧ c.2 ≤ total)

/-- Calling the separation model directly, once, on the whole signal
(the spec's description of the round-trip on a short buffer). -/
def directModelCall (m : Model) (total : Int) :
    Option (Int → Int → Int → ℚ) :=
  m 0 total

/-- Invariant of the chunking loop for an overlap of zero: the committed
ranges tile `[0, segment_start)` exactly and the playhead after `k`
committed segments sits at `min(k * seg, total)`. -/
def Inv0 (total seg : Int) (st : St) : Prop :=
  covers st.committed 0 st.segStart ∧ st.lastStart < st.segStart ∧
  0 ≤ st.segStart ∧ st.segStart = min (st.segCount * seg) total

/-! ### Arithmetic helper lemmas. -/

theorem pyCeilDiv_pos {a b : Int} (hb : 0 < b) (ha : 0 < a) : 1 ≤ pyCeilDiv a b := by
  unfold pyCeilDiv
  rw [Int.fdiv_eq_ediv _ hb.le]
  have h : (-a) / b < 0 := Int.ediv_neg' (by omega) hb
  omega

theorem le_mul_pyCeilDiv {a b : Int} (hb : 0 < b) : a ≤ b * pyCeilDiv a b := by
  unfold pyCeilDiv
  rw [Int.fdiv_eq_ediv _ hb.le]
  have h : (-a) / b * b ≤ -a := Int.ediv_mul_le (-a) hb.ne'
  have h2 : (-a) / b * b = -(b * -((-a) / b)) := by ring
  omega

theorem pyIdx_eq_of_bounds {L i : Int} (h0 : 0 ≤ i) (h1 : i ≤ L) : pyIdx L i = i := by
  rw [pyIdx, if_neg (by omega)]
  omega

theorem sliceLen_eq_of_bounds {L s e : Int} (hs0 : 0 ≤ s) (hsL : s ≤ L)
    (he0 : 0 ≤ e) (heL : e ≤ L) : sliceLen L s e = max 0 (e - s) := by
  rw [sliceLen, pyIdx_eq_of_bounds hs0 hsL, pyIdx_eq_of_bounds he0 heL]

/-! ### Helper lemmas about the loop body. -/

theorem stallCheck_of_ne {total seg segStart lastStart noProg : Int}
    (h : segStart ≠ lastStart) :
    stallCheck total seg segStart lastStart noProg =
      ⟨segStart, min (segStart + seg) total, 0, false, false⟩ := by
  rw [stallCheck, if_neg h]

theorem covers_append_single {l : List (Int × Int)} {a b c : Int}
    (h : covers l a b) (hbc : b < c) : covers (l ++ [(b, c)]) a c := by
  induction l generalizing a with
  | nil => exact ⟨h.symm, h ▸ hbc, rfl⟩
  | cons q t ih => exact ⟨h.1, h.2.1, ih h.2.2⟩

theorem covers_mem_bounds {l : List (Int × Int)} :
    ∀ {a b : Int}, covers l a b →
      a ≤ b ∧ ∀ q ∈ l, a ≤ q.1 ∧ q.1 < q.2 ∧ q.2 ≤ b := by
  induction l with
  | nil =>
    intro a b h
    simp only [covers] at h
    exact ⟨le_of_eq h, by simp⟩
  | cons q t ih =>
    intro a b h
    obtain ⟨h1, h2, h3⟩ := h
    obtain ⟨hab, hmem⟩ := ih h3
    refine ⟨by omega, ?_⟩
    intro p hp
    rcases List.mem_cons.mp hp with heq | hp'
    · subst heq
      exact ⟨by omega, by omega, by omega⟩
    · have := hmem p hp'
      exact ⟨by omega, by omega, by omega⟩

theorem progressUpdate_segStart (total s2 : Int) (st : St) :
    (progressUpdate total s2 st).segStart = s2 := by
  unfold progressUpdate; dsimp only; split <;> split <;> rfl

theorem progressUpdate_segCount (total s2 : Int) (st : St) :
    (progressUpdate total s2 st).segCount = st.segCount + 1 := by
  unfold progressUpdate; dsimp only; split <;> split <;> rfl

theorem progressUpdate_lastStart (total s2 : Int) (st : St) :
    (progressUpdate total s2 st).lastStart = st.lastStart := by
  unfold progressUpdate; dsimp only; split <;> split <;> rfl

theorem progressUpdate_noProg (total s2 : Int) (st : St) :
    (progressUpdate total s2 st).noProg = st.noProg := by
  unfold progressUpdate; dsimp only; split <;> split <;> rfl

theorem progressUpdate_committed (total s2 : Int) (st : St) :
    (progressUpdate total s2 st).committed = st.committed := by
  unfold progressUpdate; dsimp only; split <;> split <;> rfl

theorem progressUpdate_buf (total s2 : Int) (st : St) :
    (progressUpdate total s2 st).buf = st.buf := by
  unfold progressUpdate; dsimp only; split <;> split <;> rfl

theorem progressUpdate_calls (total s2 : Int) (st : St) :
    (progressUpdate total s2 st).calls = st.calls := by
  unfold progressUpdate; dsimp only; split <;> split <;> rfl

theorem progressUpdate_iters (total s2 : Int) (st : St) :
    (progressUpdate total s2 st).iters = st.iters := by
  unfold progressUpdate; dsimp only; split <;> split <;> rfl

theorem progressUpdate_ratios (total s2 : Int) (st : St) :
    (progressUpdate total s2 st).ratios =
      st.ratios ++ [min ((s2 : ℚ) / (total : ℚ)) 1] := by
  unfold progressUpdate; dsimp only; split <;> split <;> rfl

theorem progressUpdate_emits_bound (total s2 : Int) (st : St)
    (h : ∀ x ∈ st.emits, x ≤ 80) :
    ∀ x ∈ (progressUpdate total s2 st).emits, x ≤ 80 := by
  unfold progressUpdate
  dsimp only
  split <;> split <;>
    first
      | exact h
      | (intro x hx
         rcases List.mem_append.mp hx with hx' | hx'
         · exact h x hx'
         · simp only [List.mem_singleton] at hx'
           subst hx'
           exact min_le_right _ _)

/-- Case analysis of one non-stalled loop-body execution on the window
`[s, e)`: the model fails and the window is skipped; the effective region
is degenerate and the window is skipped; or the effective region is
committed and the playhead advances by one stride. -/
theorem processWindow_cases (m : Model) {total seg ov s e : Int} (st : St)
    (hov : 0 ≤ ov) (hstride : 1 ≤ seg - ov)
    (hs0 : 0 ≤ s) (hst : s < total) (hseg : st.segStart = s)
    (he : e = min (s + seg) total) :
    (m s e = none ∧
      processWindow m total seg ov s e st =
        { st with segStart := min (s + (seg - ov)) total,
                  calls := st.calls ++ [(s, e)] }) ∨
    (∃ w, m s e = some w ∧
      e - (if e = total then 0 else ov) ≤ s + (if s = 0 then 0 else ov) ∧
      processWindow m total seg ov s e st =
        { st with segStart := min (s + (seg - ov)) total,
                  calls := st.calls ++ [(s, e)] }) ∨
    (∃ w, m s e = some w ∧
      s + (if s = 0 then 0 else ov) < e - (if e = total then 0 else ov) ∧
      processWindow m total seg ov s e st =
        progressUpdate total (min (s + (seg - ov)) total)
          { st with
              calls := st.calls ++ [(s, e)],
              committed := st.committed ++
                [(s + (if s = 0 then 0 else ov),
                  e - (if e = total then 0 else ov))],
              buf := fun src ch q =>
                if s + (if s = 0 then 0 else ov) ≤ q ∧
                    q < e - (if e = total then 0 else ov) then
                  w src ch ((if s = 0 then 0 else ov) +
                    (q - (s + (if s = 0 then 0 else ov))))
                else st.buf src ch q }) := by
  have hseg1 : 1 ≤ seg := by omega
  have hE1 : s < e := by omega
  have hE2 : e ≤ total := by omega
  have hslice : sliceLen total s e = e - s := by
    rw [sliceLen_eq_of_bounds (by omega) (by omega) (by omega) (by omega)]
    omega
  have hovS0 : 0 ≤ (if s = 0 then 0 else ov) := by split <;> omega
  have hovS1 : (if s = 0 then 0 else ov) ≤ ov := by split <;> omega
  have hovE0 : 0 ≤ (if e = total then 0 else ov) := by split <;> omega
  have hovE1 : (if e = total then 0 else ov) ≤ ov := by split <;> omega
  unfold processWindow
  rw [if_neg (by omega)]
  cases hm : m s e with
  | none =>
    left
    refine ⟨rfl, ?_⟩
    dsimp only
    unfold advanceSkip
    dsimp only
    rw [hseg]
  | some w =>
    right
    dsimp only
    unfold commitAndAdvance
    dsimp only
    by_cases heff :
        e - (if e = total then 0 else ov) ≤ s + (if s = 0 then 0 else ov)
    · left
      refine ⟨w, rfl, heff, ?_⟩
      rw [if_pos heff]
      unfold advanceSkip
      dsimp only
      rw [hseg]
    · right
      push_neg at heff
      refine ⟨w, rfl, heff, ?_⟩
      rw [if_neg (show ¬ (e - (if e = total then 0 else ov) ≤
            s + (if s = 0 then 0 else ov)) by omega)]
      rw [hslice]
      have hlen :
          min ((e - s) - (if s = 0 then 0 else ov) - (if e = total then 0 else ov))
            ((e - (if e = total then 0 else ov)) - (s + (if s = 0 then 0 else ov))) =
          (e - (if e = total then 0 else ov)) - (s + (if s = 0 then 0 else ov)) := by
        omega
      unfold copyEffective
      dsimp only
      rw [hlen]
      rw [if_pos (show (0:Int) <
            (e - (if e = total then 0 else ov)) - (s + (if s = 0 then 0 else ov))
          by omega)]
      rw [@pyIdx_eq_of_bounds total (s + (if s = 0 then 0 else ov))
            (by omega) (by omega),
          @pyIdx_eq_of_bounds total (e - (if e = total then 0 else ov))
            (by omega) (by omega),
          @pyIdx_eq_of_bounds (e - s) (if s = 0 then 0 else ov)
            (by omega) (by omega),
          @pyIdx_eq_of_bounds (e - s)
            ((if s = 0 then 0 else ov) +
              ((e - (if e = total then 0 else ov)) - (s + (if s = 0 then 0 else ov))))
            (by omega) (by omega)]
      rw [if_pos (show
            (e - (if e = total then 0 else ov)) - (s + (if s = 0 then 0 else ov)) =
              (if s = 0 then 0 else ov) +
                  ((e - (if e = total then 0 else ov)) -
                    (s + (if s = 0 then 0 else ov))) -
                (if s = 0 then 0 else ov) by omega)]
      rw [if_neg (show ¬ s + (seg - ov) ≤ s by omega)]

theorem loopIter_no_stall (m : Model) {total seg ov : Int} (st : St)
    (hne : st.segStart ≠ st.lastStart) :
    loopIter m total seg ov st =
      (processWindow m total seg ov st.segStart (min (st.segStart + seg) total)
        { st with noProg := 0, lastStart := st.segStart, iters := st.iters + 1 },
       false) := by
  simp only [loopIter, stallCheck_of_ne hne]
  rfl

theorem inRanges_append {l1 l2 : List (Int × Int)} {p : Int} :
    inRanges (l1 ++ l2) p ↔ inRanges l1 p ∨ inRanges l2 p := by
  constructor
  · rintro ⟨q, hq, hb⟩
    rcases List.mem_append.mp hq with h | h
    · exact Or.inl ⟨q, h, hb⟩
    · exact Or.inr ⟨q, h, hb⟩
  · rintro (⟨q, hq, hb⟩ | ⟨q, hq, hb⟩)
    · exact ⟨q, List.mem_append.mpr (Or.inl hq), hb⟩
    · exact ⟨q, List.mem_append.mpr (Or.inr hq), hb⟩

theorem inRanges_single {a b p : Int} :
    inRanges [(a, b)] p ↔ a ≤ p ∧ p < b := by
  constructor
  · rintro ⟨q, hq, hb⟩
    simp only [List.mem_singleton] at hq
    subst hq
    exact hb
  · intro h
    exact ⟨(a, b), List.mem_singleton_self _, h⟩

theorem chain_le_append {l : List ℚ} {B x : ℚ} (hc : List.Chain' (· ≤ ·) l)
    (hb : ∀ r ∈ l, r ≤ B) (hx : B ≤ x) : List.Chain' (· ≤ ·) (l ++ [x]) := by
  rw [List.chain'_append]
  refine ⟨hc, List.chain'_singleton x, ?_⟩
  intro y hy z hz
  simp only [List.head?_cons, Option.mem_def, Option.some.injEq] at hz
  subst hz
  obtain ⟨hn, heq⟩ := List.mem_getLast?_eq_getLast hy
  exact le_trans (hb y (heq ▸ List.getLast_mem hn)) hx

theorem ratioBound_mono {a b total : Int} (h : a ≤ b) (ht : 0 < total) :
    min ((a : ℚ) / (total : ℚ)) 1 ≤ min ((b : ℚ) / (total : ℚ)) 1 := by
  have hab : (a : ℚ) ≤ (b : ℚ) := by exact_mod_cast h
  have ht' : (0 : ℚ) < (total : ℚ) := by exact_mod_cast ht
  exact min_le_min (div_le_div_of_nonneg_right hab ht'.le) le_rfl

/-- One non-final iteration of the chunking loop preserves the loop
invariant, never breaks, strictly advances the playhead, makes exactly one
model call on the current window, increments the committed-segment counter
by at most one, and either leaves buffer and committed ranges unchanged or
appends one well-formed committed range whose interior is the only part of
the buffer written. -/
theorem loopIter_step (m : Model) {total seg ov : Int} (st : St)
    (hov : 0 ≤ ov) (hos : ov < seg) (hts : seg < total)
    (hInv : Inv total ov st) (hlt : st.segStart < total) :
    (loopIter m total seg ov st).2 = false ∧
    Inv total ov (loopIter m total seg ov st).1 ∧
    st.segStart < (loopIter m total seg ov st).1.segStart ∧
    (loopIter m total seg ov st).1.calls =
      st.calls ++ [(st.segStart, min (st.segStart + seg) total)] ∧
    st.segCount ≤ (loopIter m total seg ov st).1.segCount ∧
    (loopIter m total seg ov st).1.segCount ≤ st.segCount + 1 ∧
    ((loopIter m total seg ov st).1.committed = st.committed ∧
        (loopIter m total seg ov st).1.buf = st.buf ∨
      ∃ a b, 0 ≤ a ∧ a < b ∧ b ≤ total ∧
        (loopIter m total seg ov st).1.committed = st.committed ++ [(a, b)] ∧
        ∀ src ch q, ¬ (a ≤ q ∧ q < b) →
          (loopIter m total seg ov st).1.buf src ch q = st.buf src ch q) := by
  obtain ⟨h0, h1, hlast, ⟨hpw, hbnd⟩, hbehind, hzero, hrat, hchain, hemits, hcallsB⟩ :=
    hInv
  have hne : st.segStart ≠ st.lastStart := by omega
  have htpos : (0 : Int) < total := by omega
  rw [loopIter_no_stall m st hne]
  dsimp only
  rcases processWindow_cases (s := st.segStart)
      (e := min (st.segStart + seg) total) m
      { st with noProg := 0, lastStart := st.segStart, iters := st.iters + 1 }
      hov (by omega) h0 hlt rfl rfl with
    ⟨hm, hres⟩ | ⟨w, hm, hdeg, hres⟩ | ⟨w, hm, hcom, hres⟩
  · rw [hres]
    dsimp only
    refine ⟨rfl, ⟨by (try dsimp only); omega, by (try dsimp only); omega,
      by (try dsimp only); omega,
      ⟨hpw, hbnd⟩, ?_, hzero, ?_, hchain, hemits, ?_⟩,
      by omega, rfl, le_refl _, by omega,
      Or.inl ⟨rfl, rfl⟩⟩
    · dsimp only
      intro q hq
      rcases hbehind q hq with h | h
      · left; omega
      · right; omega
    · dsimp only
      intro r hr
      exact le_trans (hrat r hr) (ratioBound_mono (by omega) htpos)
    · dsimp only
      intro c hc
      rcases List.mem_append.mp hc with h | h
      · exact hcallsB c h
      · simp only [List.mem_singleton] at h
        subst h
        exact ⟨by (try dsimp only); omega, by (try dsimp only); omega, by (try dsimp only); omega⟩
  · rw [hres]
    dsimp only
    refine ⟨rfl, ⟨by (try dsimp only); omega, by (try dsimp only); omega,
      by (try dsimp only); omega,
      ⟨hpw, hbnd⟩, ?_, hzero, ?_, hchain, hemits, ?_⟩,
      by omega, rfl, le_refl _, by omega,
      Or.inl ⟨rfl, rfl⟩⟩
    · dsimp only
      intro q hq
      rcases hbehind q hq with h | h
      · left; omega
      · right; omega
    · dsimp only
      intro r hr
      exact le_trans (hrat r hr) (ratioBound_mono (by omega) htpos)
    · dsimp only
      intro c hc
      rcases List.mem_append.mp hc with h | h
      · exact hcallsB c h
      · simp only [List.mem_singleton] at h
        subst h
        exact ⟨by (try dsimp only); omega, by (try dsimp only); omega, by (try dsimp only); omega⟩
  · rw [hres]
    simp only [progressUpdate_segStart, progressUpdate_segCount,
      progressUpdate_lastStart, progressUpdate_noProg, progressUpdate_committed,
      progressUpdate_buf, progressUpdate_calls, progressUpdate_ratios]
    have hA0 : 0 ≤ (if st.segStart = 0 then 0 else ov) := by split <;> omega
    have hA1 : (if st.segStart = 0 then 0 else ov) ≤ ov := by split <;> omega
    have hB0 : 0 ≤ (if (st.segStart + seg) ⊓ total = total then 0 else ov) := by
      split <;> omega
    have hB1 : (if (st.segStart + seg) ⊓ total = total then 0 else ov) ≤ ov := by
      split <;> omega
    have hnotend : st.segStart + ov < total := by
      by_cases hs : st.segStart = 0
      · omega
      · rw [if_neg hs] at hcom
        omega
    have hbehind' : ∀ q ∈ st.committed, q.2 ≤ st.segStart := by
      intro q hq
      rcases hbehind q hq with h | h
      · exact h
      · omega
    refine ⟨trivial, ?_, by omega, trivial, by omega, by omega,
      Or.inr ⟨st.segStart + (if st.segStart = 0 then 0 else ov),
        (st.segStart + seg) ⊓ total -
          (if (st.segStart + seg) ⊓ total = total then 0 else ov),
        by omega, hcom, by omega, rfl, ?_⟩⟩
    pick_goal 2
    · intro src ch q hq
      rw [if_neg hq]
    unfold Inv
    simp only [progressUpdate_segStart, progressUpdate_segCount,
      progressUpdate_lastStart, progressUpdate_committed,
      progressUpdate_buf, progressUpdate_calls, progressUpdate_ratios]
    refine ⟨by omega, by omega, by omega, ⟨?_, ?_⟩, ?_, ?_, ?_, ?_, ?_, ?_⟩
    · refine List.pairwise_append.mpr ⟨hpw, List.pairwise_singleton _ _, ?_⟩
      intro a ha b hb
      simp only [List.mem_singleton] at hb
      subst hb
      have := hbehind' a ha
      dsimp only
      omega
    · intro q hq
      rcases List.mem_append.mp hq with h | h
      · exact hbnd q h
      · simp only [List.mem_singleton] at h
        subst h
        exact ⟨by dsimp only; omega, by dsimp only; omega, by dsimp only; omega⟩
    · intro q hq
      rcases List.mem_append.mp hq with h | h
      · have := hbehind' q h
        left
        omega
      · simp only [List.mem_singleton] at h
        subst h
        dsimp only
        by_cases he' : (st.segStart + seg) ⊓ total = total
        · right
          omega
        · left
          simp only [if_neg he']
          omega
    · intro src ch pos hpos
      have hold : ¬ inRanges st.committed pos := fun h =>
        hpos (inRanges_append.mpr (Or.inl h))
      have hnew : ¬ ((st.segStart + (if st.segStart = 0 then 0 else ov)) ≤ pos ∧
          pos < (st.segStart + seg) ⊓ total -
            (if (st.segStart + seg) ⊓ total = total then 0 else ov)) := fun h =>
        hpos (inRanges_append.mpr (Or.inr (inRanges_single.mpr h)))
      rw [if_neg hnew]
      exact hzero src ch pos hold
    · intro r hr
      rcases List.mem_append.mp hr with h | h
      · exact le_trans (hrat r h) (ratioBound_mono (by omega) htpos)
      · simp only [List.mem_singleton] at h
        subst h
        exact le_refl _
    · exact chain_le_append hchain hrat (ratioBound_mono (by omega) htpos)
    · exact progressUpdate_emits_bound _ _ _ hemits
    · intro c hc
      rcases List.mem_append.mp hc with h | h
      · exact hcallsB c h
      · simp only [List.mem_singleton] at h
        subst h
        exact ⟨by dsimp only; omega, by dsimp only; omega, by dsimp only; omega⟩

/-- The chunking loop, started in an invariant state, finishes in an
invariant state, exits only because the playhead reached `total_length` or
the committed-segment counter reached the cap, only appends model calls,
and never decreases playhead or counter. -/
theorem loop_invariant (m : Model) {total seg ov maxSeg : Int}
    (hov : 0 ≤ ov) (hos : ov < seg) (hts : seg < total) :
    ∀ (fuel : Nat) (st st' : St), Inv total ov st →
      loop m total seg ov maxSeg fuel st = some st' →
      Inv total ov st' ∧ (total ≤ st'.segStart ∨ maxSeg ≤ st'.segCount) ∧
      st.calls <+: st'.calls ∧ st.segCount ≤ st'.segCount ∧
      (st.segCount ≤ maxSeg → st'.segCount ≤ maxSeg) ∧
      st.segStart ≤ st'.segStart := by
  intro fuel
  induction fuel with
  | zero =>
    intro st st' _ h
    simp [loop] at h
  | succ fuel ih =>
    intro st st' hInv hrun
    rw [loop] at hrun
    by_cases hcond : st.segStart < total ∧ st.segCount < maxSeg
    · rw [if_pos hcond] at hrun
      have hstep := loopIter_step m st hov hos hts hInv hcond.1
      rcases hIter : loopIter m total seg ov st with ⟨st1, b⟩
      rw [hIter] at hstep hrun
      dsimp only at hstep hrun
      obtain ⟨hbrk, hInv', hlt', hcalls', hcnt1, hcnt2, _⟩ := hstep
      subst hbrk
      dsimp only at hrun
      obtain ⟨hI, hexit, hpre, hc1, hc2, hs⟩ := ih st1 st' hInv' hrun
      refine ⟨hI, hexit, ?_, by omega, by omega, by omega⟩
      rw [hcalls'] at hpre
      exact (List.prefix_append st.calls _).trans hpre
    · rw [if_neg hcond] at hrun
      injection hrun with h
      subst h
      exact ⟨hInv, by omega, List.prefix_refl _, le_refl _, fun h => h,
        le_refl _⟩

theorem fdiv_nonneg' {a b : Int} (ha : 0 ≤ a) (hb : 0 ≤ b) :
    0 ≤ Int.fdiv a b := by
  rw [Int.fdiv_eq_ediv _ hb]
  exact Int.ediv_nonneg ha hb

/-- Whatever the stall counter does, the window it hands to the body has
its start inside `[segStart, total]` and its end one window further,
capped; and when it does not break the start is strictly before the
end of the signal. -/
theorem stallCheck_out (total seg segStart lastStart noProg : Int)
    (hseg : 1 ≤ seg) (h0 : 0 ≤ segStart) (hlt : segStart < total) :
    0 ≤ (stallCheck total seg segStart lastStart noProg).s ∧
    (stallCheck total seg segStart lastStart noProg).s ≤ total ∧
    segStart ≤ (stallCheck total seg segStart lastStart noProg).s ∧
    (stallCheck total seg segStart lastStart noProg).e =
      min ((stallCheck total seg segStart lastStart noProg).s + seg) total ∧
    ((stallCheck total seg segStart lastStart noProg).brk = false →
      (stallCheck total seg segStart lastStart noProg).s < total) := by
  have hf : 0 ≤ Int.fdiv seg 4 := fdiv_nonneg' (by omega) (by omega)
  unfold stallCheck
  split_ifs with h1 h2
  · refine ⟨by dsimp only; omega, by dsimp only; omega, by dsimp only; omega,
      by dsimp only, ?_⟩
    dsimp only
    intro hb
    rw [decide_eq_false_iff_not] at hb
    omega
  · exact ⟨h0, by dsimp only; omega, le_refl _, rfl, fun _ => hlt⟩
  · exact ⟨h0, by dsimp only; omega, le_refl _, rfl, fun _ => hlt⟩

/-- Every playhead update of the loop body (including the forced stall
jump) takes the minimum with `total_length`, so the playhead stays inside
`[0, total_length]`. -/
theorem loopIter_bounds (m : Model) {total seg ov : Int} (st : St)
    (hov : 0 ≤ ov) (hos : ov < seg)
    (h0 : 0 ≤ st.segStart) (hlt : st.segStart < total) :
    0 ≤ (loopIter m total seg ov st).1.segStart ∧
    (loopIter m total seg ov st).1.segStart ≤ total := by
  unfold loopIter
  set so := stallCheck total seg st.segStart st.lastStart st.noProg with hso
  obtain ⟨k0, k1, k2, k3, k4⟩ :=
    stallCheck_out total seg st.segStart st.lastStart st.noProg (by omega) h0 hlt
  rw [← hso] at k0 k1 k2 k3 k4
  cases hbrk : so.brk
  · dsimp only
    rw [if_neg (by rw [hbrk]; exact Bool.false_ne_true)]
    dsimp only
    rcases processWindow_cases (s := so.s) (e := so.e) m
        { st with segStart := so.s, noProg := so.np, lastStart := so.s,
                  iters := st.iters + 1 }
        hov (by omega) k0 (k4 hbrk) rfl k3 with
      ⟨hm, hres⟩ | ⟨w, hm, hdeg, hres⟩ | ⟨w, hm, hcom, hres⟩
    · rw [hres]; dsimp only; omega
    · rw [hres]; dsimp only; omega
    · rw [hres]
      rw [progressUpdate_segStart]
      omega
  · dsimp only
    rw [if_pos (by rw [hbrk])]
    dsimp only
    omega

/-- The state entering the chunking loop satisfies the loop invariant. -/
theorem initSt_inv {total seg ov : Int}
    (hov : 0 ≤ ov) (hos : ov < seg) (hts : seg < total) :
    Inv total ov (initSt (min seg total)) := by
  unfold Inv initSt initBuf
  dsimp only
  refine ⟨le_refl 0, by omega, by norm_num, ⟨List.Pairwise.nil, by simp⟩, by simp,
    fun _ _ _ _ => rfl, by simp, List.chain'_nil, by simp, ?_⟩
  intro c hc
  simp only [List.mem_singleton] at hc
  subst hc
  exact ⟨le_refl 0, by omega, by omega⟩

/-- In chunking mode (`total > seg`, nonzero stride), `_separate_chunks`
is the probe call followed by the loop. -/
theorem separateChunks_chunking (m : Model) {total seg ov : Int}
    (hns : ¬ seg - ov = 0) (hts : seg < total) (fuel : Nat) :
    separateChunks m total seg ov fuel =
      match m 0 (min seg total) with
      | none => some (Except.error ⟨PyErr.modelErr, [(0, min seg total)]⟩)
      | some _ =>
        match loop m total seg ov (maxSegOf total seg ov) fuel
            (initSt (min seg total)) with
        | none => none
        | some st => some (Except.ok (mkOutcome st)) := by
  unfold separateChunks maxSegOf
  rw [if_neg (by omega)]
  dsimp only
  rw [if_neg hns]

theorem covers_inRanges {l : List (Int × Int)} {p : Int} :
    ∀ {a b : Int}, covers l a b → a ≤ p → p < b → inRanges l p := by
  induction l with
  | nil =>
    intro a b h hp hpb
    simp only [covers] at h
    exact ((by omega : False)).elim
  | cons q t ih =>
    intro a b h hp hpb
    obtain ⟨h1, h2, h3⟩ := h
    by_cases hc : p < q.2
    · exact ⟨q, List.mem_cons_self q t, by omega, hc⟩
    · obtain ⟨r, hr, hr2⟩ := ih h3 (by omega) hpb
      exact ⟨r, List.mem_cons_of_mem q hr, hr2⟩

/-! ### Claim theorems. -/

/-- C10: throughout the chunking loop the playhead invariant
`0 ≤ segment_start ≤ total_length` holds after every update (every
assignment to `segment_start` takes the minimum with `total_length`,
including the forced stall jump), and consequently every segment handed to
the model is a valid half-open range `[segment_start, segment_end)` with
`segment_end ≤ total_length`. -/
theorem playhead_bounds_invariant (m : Model) {total seg ov : Int}
    (hov : 0 ≤ ov) (hos : ov < seg) (hts : seg < total) :
    (∀ st : St, 0 ≤ st.segStart → st.segStart < total →
      0 ≤ (loopIter m total seg ov st).1.segStart ∧
      (loopIter m total seg ov st).1.segStart ≤ total) ∧
    (∀ fuel : Nat,
      0 ≤ runFinalStart (separateChunks m total seg ov fuel) ∧
      runFinalStart (separateChunks m total seg ov fuel) ≤ total ∧
      ∀ c ∈ runCalls (separateChunks m total seg ov fuel),
        0 ≤ c.1 ∧ c.1 < c.2 ∧ c.2 ≤ total) := by
  refine ⟨fun st h0 hlt => loopIter_bounds m st hov hos h0 hlt, ?_⟩
  intro fuel
  rw [separateChunks_chunking m (by omega) hts fuel]
  cases hprobe : m 0 (min seg total) with
  | none =>
    dsimp only [runFinalStart, runCalls]
    exact ⟨le_refl 0, by omega, by simp⟩
  | some w =>
    cases hloop : loop m total seg ov (maxSegOf total seg ov) fuel
        (initSt (min seg total)) with
    | none =>
      dsimp only [runFinalStart, runCalls]
      exact ⟨le_refl 0, by omega, by simp⟩
    | some st' =>
      obtain ⟨hI, _, _, _, _, _⟩ :=
        loop_invariant m hov hos hts fuel _ st' (initSt_inv hov hos hts) hloop
      obtain ⟨a1, a2, _, _, _, _, _, _, _, acalls⟩ := hI
      dsimp only [runFinalStart, runCalls, mkOutcome]
      exact ⟨a1, a2, acalls⟩

theorem playhead_bounds_invariant_witness :
    0 ≤ runFinalStart (separateChunks mOnes 30 10 2 100) ∧
    runFinalStart (separateChunks mOnes 30 10 2 100) ≤ 30 :=
  ⟨((playhead_bounds_invariant mOnes (by decide) (by decide) (by decide)).2
      100).1,
   ((playhead_bounds_invariant mOnes (by decide) (by decide) (by decide)).2
      100).2.1⟩

/-- C7: across successive committing iterations the progress ratios
`min(segment_start / total_length, 1)` are non-decreasing and never exceed
1, every separation-phase percentage passed to the callback is at most 80
(also on the direct path), and every export-phase percentage is at most
100 — so no phase ever reports above 100. -/
theorem progress_monotone_bounded (m : Model) {total seg ov : Int}
    (hov : 0 ≤ ov) (hos : ov < seg) (hts : seg < total) :
    (∀ fuel : Nat,
      List.Chain' (· ≤ ·) (runRatios (separateChunks m total seg ov fuel)) ∧
      (∀ r ∈ runRatios (separateChunks m total seg ov fuel), r ≤ 1) ∧
      (∀ x ∈ runEmits (separateChunks m total seg ov fuel), x ≤ 80)) ∧
    (∀ (m' : Model) (total' seg' ov' : Int), total' ≤ seg' → ∀ fuel : Nat,
      ∀ x ∈ runEmits (separateChunks m' total' seg' ov' fuel), x ≤ 80) ∧
    (∀ n : Nat, ∀ x ∈ exportEmits n, x ≤ 100) := by
  refine ⟨?_, ?_, ?_⟩
  · intro fuel
    rw [separateChunks_chunking m (by omega) hts fuel]
    cases hprobe : m 0 (min seg total) with
    | none =>
      dsimp only [runRatios, runEmits]
      exact ⟨List.chain'_nil, by simp, by simp⟩
    | some w =>
      cases hloop : loop m total seg ov (maxSegOf total seg ov) fuel
          (initSt (min seg total)) with
      | none =>
        dsimp only [runRatios, runEmits]
        exact ⟨List.chain'_nil, by simp, by simp⟩
      | some st' =>
        obtain ⟨hI, _, _, _, _, _⟩ :=
          loop_invariant m hov hos hts fuel _ st' (initSt_inv hov hos hts) hloop
        obtain ⟨_, _, _, _, _, _, arat, achain, aem, _⟩ := hI
        dsimp only [runRatios, runEmits, mkOutcome]
        exact ⟨achain, fun r hr => le_trans (arat r hr) (min_le_right _ _), aem⟩
  · intro m' total' seg' ov' hdir fuel x hx
    unfold separateChunks at hx
    rw [if_pos hdir] at hx
    cases hm : m' 0 total' with
    | none =>
      rw [hm] at hx
      dsimp only [runEmits] at hx
      simp at hx
    | some w =>
      rw [hm] at hx
      dsimp only [runEmits] at hx
      simp only [List.mem_cons, List.mem_singleton, List.not_mem_nil,
        or_false] at hx
      rcases hx with h | h
      · subst h; norm_num
      · subst h; norm_num
  · intro n x hx
    unfold exportEmits at hx
    simp only [List.mem_map, List.mem_range] at hx
    obtain ⟨i, _, hi⟩ := hx
    rw [← hi]
    exact min_le_right _ _

theorem progress_monotone_bounded_witness :
    List.Chain' (· ≤ ·) (runRatios (separateChunks mOnes 30 10 2 100)) :=
  ((progress_monotone_bounded mOnes (by decide) (by decide)
      (by decide)).1 100).1

/-- C3 amended: the cap `max_segments = min(2 × expected_segment_count,
1000)` bounds the committed-segment counter, not the number of loop
iterations (iterations skipped by the degenerate-segment, model-failure or
degenerate-effective-region checks do not increment `segment_count`, so
total iterations can exceed the cap); when the loop finishes — including
by hitting the cap with the playhead short of `total_length` — the call
still returns the output buffer rather than raising. -/
theorem segment_cap_bounds_commits (m : Model) {total seg ov : Int}
    (hov : 0 ≤ ov) (hos : ov < seg) (hts : seg < total) :
    ∀ fuel : Nat, runIsSome (separateChunks m total seg ov fuel) = true →
      (m 0 (min seg total)).isSome = true →
      runIsOk (separateChunks m total seg ov fuel) = true ∧
      runSegCount (separateChunks m total seg ov fuel) ≤
        maxSegOf total seg ov := by
  intro fuel hsome hprobe
  rw [separateChunks_chunking m (by omega) hts fuel] at hsome ⊢
  rcases hpr : m 0 (min seg total) with _ | w
  · rw [hpr] at hprobe
    simp at hprobe
  · rw [hpr] at hsome
    dsimp only at hsome ⊢
    cases hloop : loop m total seg ov (maxSegOf total seg ov) fuel
        (initSt (min seg total)) with
    | none =>
      rw [hloop] at hsome
      simp [runIsSome] at hsome
    | some st' =>
      obtain ⟨_, _, _, _, hcap, _⟩ :=
        loop_invariant m hov hos hts fuel _ st' (initSt_inv hov hos hts) hloop
      have h1 : 1 ≤ pyCeilDiv (total - ov) (seg - ov) :=
        pyCeilDiv_pos (by omega) (by omega)
      have h0cap : (initSt (min seg total)).segCount ≤ maxSegOf total seg ov := by
        unfold initSt maxSegOf
        dsimp only
        omega
      dsimp only [runIsOk, runSegCount, mkOutcome]
      exact ⟨rfl, hcap h0cap⟩

theorem segment_cap_bounds_commits_witness :
    runIsOk (separateChunks mOnes 10 9 8 50) = true ∧
    runSegCount (separateChunks mOnes 10 9 8 50) ≤ maxSegOf 10 9 8 :=
  segment_cap_bounds_commits mOnes (by decide) (by decide) (by decide) 50
    (by decide) (by decide)

/-- C2 amended: no `ConfigurationError` exists in the code. Only in the
configuration `overlap_length = window_length` (with chunking mode
engaged, `total_length > window_length`) does the call fail before any
model call: the stride is zero and the expected-segment-count computation
raises `ZeroDivisionError`, fatal to the call, with no model call made.
For `overlap_length > window_length` or non-positive lengths no error is
raised before processing (see the counterexample). -/
theorem overlap_eq_window_zero_division (m : Model) {total seg ov : Int}
    (hts : seg < total) (hoe : ov = seg) (fuel : Nat) :
    separateChunks m total seg ov fuel =
      some (Except.error ⟨PyErr.zeroDiv, []⟩) := by
  unfold separateChunks
  rw [if_neg (by omega)]
  dsimp only
  rw [if_pos (by omega)]

theorem overlap_eq_window_zero_division_witness :
    separateChunks mOnes 20 10 10 50 =
      some (Except.error ⟨PyErr.zeroDiv, []⟩) :=
  overlap_eq_window_zero_division mOnes (by decide) rfl 50

/-- C6: when the whole signal fits one window (`total_length ≤
window_length`) the pipeline takes the direct path: exactly one model
call, on the whole signal, no committed ranges (no stitching or overlap
handling), and the returned output is exactly the result of calling the
model directly once on that signal; a failure of that single call
propagates as the call's failure. -/
theorem direct_mode_refines_single_call (m : Model) {total seg ov : Int}
    (h : total ≤ seg) (fuel : Nat) :
    runIsSome (separateChunks m total seg ov fuel) = true ∧
    runIsOk (separateChunks m total seg ov fuel) =
      (directModelCall m total).isSome ∧
    (∀ w, directModelCall m total = some w →
      separateChunks m total seg ov fuel =
        some (Except.ok ⟨w, [(0, total)], [10, 80], [], 0, 0, 0, []⟩)) ∧
    (directModelCall m total = none →
      separateChunks m total seg ov fuel =
        some (Except.error ⟨PyErr.modelErr, [(0, total)]⟩)) := by
  unfold separateChunks directModelCall
  rw [if_pos h]
  cases hm : m 0 total with
  | none =>
    exact ⟨rfl, rfl, fun w hw => Option.noConfusion hw, fun _ => rfl⟩
  | some w' =>
    refine ⟨rfl, rfl, fun w hw => ?_, fun h' => Option.noConfusion h'⟩
    injection hw with hw'
    subst hw'
    rfl

theorem direct_mode_refines_single_call_witness :
    separateChunks mOnes 5 10 2 7 =
      some (Except.ok ⟨fun _ _ _ => 1, [(0, 5)], [10, 80], [], 0, 0, 0, []⟩) :=
  (direct_mode_refines_single_call mOnes (by decide) 7).2.2.1
    (fun _ _ _ => 1) rfl

/-- C5: the stall guard forces a jump exactly when the current iteration
again computes the same `segment_start` and the no-progress counter has
already recorded 2 consecutive stalls (so on the third consecutive
non-advancing iteration); the jump advances the playhead by
`2 × window_length` capped at `total_length` and resets the counter, and
the loop breaks out immediately exactly when the jump lands within one
(floored) quarter-window of `total_length`. Below the threshold a stalled
iteration increments the counter keeping the playhead; an advancing
iteration resets it. -/
theorem stall_guard_mechanism :
    (∀ total seg s l n : Int,
      ((stallCheck total seg s l n).jumped = true ↔ s = l ∧ 2 ≤ n)) ∧
    (∀ total seg s l n : Int, s = l → 2 ≤ n →
      (stallCheck total seg s l n).s = min (s + seg * 2) total ∧
      (stallCheck total seg s l n).np = 0 ∧
      ((stallCheck total seg s l n).brk = true ↔
        total - Int.fdiv seg 4 ≤ min (s + seg * 2) total)) ∧
    (∀ total seg s l n : Int, s = l → n + 1 < 3 →
      (stallCheck total seg s l n).s = s ∧
      (stallCheck total seg s l n).np = n + 1 ∧
      (stallCheck total seg s l n).jumped = false ∧
      (stallCheck total seg s l n).brk = false) ∧
    (∀ total seg s l n : Int, s ≠ l →
      (stallCheck total seg s l n).s = s ∧
      (stallCheck total seg s l n).np = 0 ∧
      (stallCheck total seg s l n).jumped = false ∧
      (stallCheck total seg s l n).brk = false) ∧
    (∀ (m : Model) (total seg ov maxSeg : Int) (fuel : Nat) (st : St),
      st.segStart < total → st.segCount < maxSeg →
      (stallCheck total seg st.segStart st.lastStart st.noProg).brk = true →
      loop m total seg ov maxSeg (fuel + 1) st =
        some { st with
          segStart :=
            (stallCheck total seg st.segStart st.lastStart st.noProg).s,
          noProg :=
            (stallCheck total seg st.segStart st.lastStart st.noProg).np,
          iters := st.iters + 1 }) := by
  refine ⟨?_, ?_, ?_, ?_, ?_⟩
  · intro total seg s l n
    unfold stallCheck
    split_ifs with h1 h2
    · dsimp only
      constructor
      · intro _
        exact ⟨h1, by omega⟩
      · intro _
        rfl
    · simp only [Bool.false_eq_true, false_iff]
      omega
    · simp only [Bool.false_eq_true, false_iff]
      omega
  · intro total seg s l n h1 h2
    unfold stallCheck
    rw [if_pos h1, if_pos (by omega)]
    refine ⟨rfl, rfl, ?_⟩
    simp only [decide_eq_true_eq, ge_iff_le]
  · intro total seg s l n h1 h2
    unfold stallCheck
    rw [if_pos h1, if_neg (by omega)]
    exact ⟨rfl, rfl, rfl, rfl⟩
  · intro total seg s l n h1
    unfold stallCheck
    rw [if_neg h1]
    exact ⟨rfl, rfl, rfl, rfl⟩
  · intro m total seg ov maxSeg fuel st h1 h2 hbrk
    rw [loop, if_pos ⟨h1, h2⟩]
    unfold loopIter
    rw [if_pos hbrk]

theorem stall_guard_mechanism_witness :
    (stallCheck 100 10 50 50 2).s = min (50 + 10 * 2) 100 ∧
    (stallCheck 100 10 50 50 2).np = 0 :=
  ⟨(stall_guard_mechanism.2.1 100 10 50 50 2 rfl (by decide)).1,
   (stall_guard_mechanism.2.1 100 10 50 50 2 rfl (by decide)).2.1⟩

/-- C4 amended: a model failure on an in-loop window is absorbed — the
iteration records the call, skips the commit (buffer, committed ranges,
segment counter and progress unchanged), advances the playhead one
stride, and the loop continues (no break). The run reports overall
failure (`separate_tracks` returns `None`) exactly when the pre-loop
probe call on the first window raises; when the probe succeeds the run
returns an output buffer, never an overall failure, even if every in-loop
model call fails. -/
theorem model_failure_policy (m : Model) {total seg ov : Int}
    (hov : 0 ≤ ov) (hos : ov < seg) (hts : seg < total) :
    (∀ st : St, Inv total ov st → st.segStart < total →
      m st.segStart (min (st.segStart + seg) total) = none →
      loopIter m total seg ov st =
        ({ st with
            segStart := min (st.segStart + (seg - ov)) total,
            lastStart := st.segStart, noProg := 0,
            calls := st.calls ++ [(st.segStart, min (st.segStart + seg) total)],
            iters := st.iters + 1 }, false)) ∧
    (∀ fuel : Nat, (m 0 (min seg total)).isSome = true →
      runIsSome (separateChunks m total seg ov fuel) = true →
      overallFailed (separateTracks m total seg ov fuel) = false) ∧
    (∀ fuel : Nat, m 0 (min seg total) = none →
      overallFailed (separateTracks m total seg ov fuel) = true) := by
  refine ⟨?_, ?_, ?_⟩
  · intro st hInv hlt hm
    obtain ⟨h0, h1, hlast, _, _, _, _, _, _, _⟩ := hInv
    have hne : st.segStart ≠ st.lastStart := by omega
    rw [loopIter_no_stall m st hne]
    rcases processWindow_cases (s := st.segStart)
        (e := min (st.segStart + seg) total) m
        { st with noProg := 0, lastStart := st.segStart, iters := st.iters + 1 }
        hov (by omega) h0 hlt rfl rfl with
      ⟨_, hres⟩ | ⟨w, hm', _, _⟩ | ⟨w, hm', _, _⟩
    · rw [hres]
    · rw [hm] at hm'
      exact Option.noConfusion hm'
    · rw [hm] at hm'
      exact Option.noConfusion hm'
  · intro fuel hprobe hsome
    unfold separateTracks
    rw [separateChunks_chunking m (by omega) hts fuel] at hsome ⊢
    rcases hpr : m 0 (min seg total) with _ | w
    · rw [hpr] at hprobe
      simp at hprobe
    · rw [hpr] at hsome
      dsimp only at hsome ⊢
      cases hloop : loop m total seg ov (maxSegOf total seg ov) fuel
          (initSt (min seg total)) with
      | none =>
        rw [hloop] at hsome
        simp [runIsSome] at hsome
      | some st' => rfl
  · intro fuel hprobe
    unfold separateTracks
    rw [separateChunks_chunking m (by omega) hts fuel]
    rw [hprobe]
    rfl

theorem model_failure_policy_witness :
    overallFailed (separateTracks mOnes 30 10 2 100) = false :=
  (model_failure_policy mOnes (by decide) (by decide) (by decide)).2.1 100
    (by decide) (by decide)

/-- C9: in chunking mode the model is applied once before the loop, to
the first window, to determine the output dimensions; that probe result
is discarded and the first window is processed again inside the loop, so
the first two recorded model calls are both `[0, window_length)`; an
exception of the probe aborts the entire separation call with a failure
result (`separate_tracks` returns `None`), unlike in-loop model failures,
which are skipped. -/
theorem probe_call_behavior (m : Model) {total seg ov : Int}
    (hov : 0 ≤ ov) (hos : ov < seg) (hts : seg < total) :
    (∀ fuel : Nat, m 0 (min seg total) = none →
      separateChunks m total seg ov fuel =
        some (Except.error ⟨PyErr.modelErr, [(0, min seg total)]⟩) ∧
      separateTracks m total seg ov fuel = some none) ∧
    (∀ fuel : Nat, runIsSome (separateChunks m total seg ov fuel) = true →
      runIsOk (separateChunks m total seg ov fuel) = true →
      (runCalls (separateChunks m total seg ov fuel)).take 2 =
        [(0, seg), (0, seg)]) := by
  have hmin : min seg total = seg := min_eq_left (le_of_lt hts)
  constructor
  · intro fuel hprobe
    constructor
    · rw [separateChunks_chunking m (by omega) hts fuel, hprobe]
    · unfold separateTracks
      rw [separateChunks_chunking m (by omega) hts fuel, hprobe]
  · intro fuel hsome hok
    rw [separateChunks_chunking m (by omega) hts fuel] at hsome hok ⊢
    rcases hpr : m 0 (min seg total) with _ | w
    · rw [hpr] at hok
      simp [runIsOk] at hok
    · rw [hpr] at hsome
      dsimp only at hsome ⊢
      cases fuel with
      | zero =>
        rw [show loop m total seg ov (maxSegOf total seg ov) 0
            (initSt (min seg total)) = none from rfl] at hsome
        simp [runIsSome] at hsome
      | succ f =>
        have h1 : 1 ≤ pyCeilDiv (total - ov) (seg - ov) :=
          pyCeilDiv_pos (by omega) (by omega)
        have hcond : (initSt (min seg total)).segStart < total ∧
            (initSt (min seg total)).segCount < maxSegOf total seg ov := by
          unfold initSt maxSegOf
          dsimp only
          omega
        have hInv0 := initSt_inv hov hos hts
        have hstep := loopIter_step m (initSt (min seg total)) hov hos hts
          hInv0 hcond.1
        rcases hIter : loopIter m total seg ov (initSt (min seg total)) with
          ⟨st1, b⟩
        rw [hIter] at hstep
        dsimp only at hstep
        obtain ⟨hbrk, hInv1, _, hcalls1, _, _, _⟩ := hstep
        subst hbrk
        rw [loop, if_pos hcond, hIter] at hsome ⊢
        dsimp only at hsome ⊢
        cases hloop : loop m total seg ov (maxSegOf total seg ov) f st1 with
        | none =>
          rw [hloop] at hsome
          simp [runIsSome] at hsome
        | some st' =>
          obtain ⟨_, _, hpre, _, _, _⟩ :=
            loop_invariant m hov hos hts f st1 st' hInv1 hloop
          rw [hcalls1] at hpre
          have hc0 : (initSt (min seg total)).calls = [(0, seg)] := by
            unfold initSt
            rw [hmin]
          rw [hc0] at hpre
          have he0 : min ((0:Int) + seg) total = seg := by omega
          rw [show (initSt (min seg total)).segStart = (0:Int) from rfl,
            he0] at hpre
          dsimp only [runCalls, mkOutcome]
          have := List.prefix_iff_eq_take.mp hpre
          exact this.symm

theorem probe_call_behavior_witness :
    (runCalls (separateChunks mOnes 30 10 2 100)).take 2 =
      [(0, 10), (0, 10)] :=
  (probe_call_behavior mOnes (by decide) (by decide) (by decide)).2 100
    (by decide) (by decide)

/-- C8: every position of the output buffer outside all committed
effective ranges — including positions of windows skipped because of a
failed model call or a degenerate effective region — retains its initial
value of zero, for every source and channel; and each iteration either
leaves the buffer untouched or writes only inside the single effective
range it commits. -/
theorem skipped_windows_leave_zeros (m : Model) {total seg ov : Int}
    (hov : 0 ≤ ov) (hos : ov < seg) (hts : seg < total) :
    (∀ fuel : Nat, ∀ src ch pos : Int,
      (∀ q ∈ runCommitted (separateChunks m total seg ov fuel),
        ¬ (q.1 ≤ pos ∧ pos < q.2)) →
      runOutput (separateChunks m total seg ov fuel) src ch pos = 0) ∧
    (∀ st : St, Inv total ov st → st.segStart < total →
      ((loopIter m total seg ov st).1.committed = st.committed ∧
          (loopIter m total seg ov st).1.buf = st.buf ∨
        ∃ a b, (loopIter m total seg ov st).1.committed =
            st.committed ++ [(a, b)] ∧
          ∀ src ch q, ¬ (a ≤ q ∧ q < b) →
            (loopIter m total seg ov st).1.buf src ch q = st.buf src ch q)) := by
  constructor
  · intro fuel src ch pos hout
    rw [separateChunks_chunking m (by omega) hts fuel] at hout ⊢
    rcases hpr : m 0 (min seg total) with _ | w
    · rfl
    · rw [hpr] at hout
      dsimp only at hout ⊢
      cases hloop : loop m total seg ov (maxSegOf total seg ov) fuel
          (initSt (min seg total)) with
      | none => rfl
      | some st' =>
        rw [hloop] at hout
        obtain ⟨hI, _, _, _, _, _⟩ :=
          loop_invariant m hov hos hts fuel _ st' (initSt_inv hov hos hts) hloop
        obtain ⟨_, _, _, _, _, azero, _, _, _, _⟩ := hI
        dsimp only [runOutput, runCommitted, mkOutcome] at hout ⊢
        exact azero src ch pos (fun ⟨q, hq, hb⟩ => hout q hq hb)
  · intro st hInv hlt
    rcases (loopIter_step m st hov hos hts hInv hlt).2.2.2.2.2.2 with
      h | ⟨a, b, _, _, _, hc, hb⟩
    · exact Or.inl h
    · exact Or.inr ⟨a, b, hc, hb⟩

theorem skipped_windows_leave_zeros_witness :
    runOutput (separateChunks mFailAt0 30 10 2 100) 0 0 5 = 0 :=
  (skipped_windows_leave_zeros mFailAt0 (by decide) (by decide)
      (by decide)).1 100 0 0 5 (by decide)

/-- One committing iteration of the zero-overlap loop: the committed
ranges keep tiling `[0, segment_start)` and the playhead moves to
`min((segment_count + 1) * seg, total)`. -/
theorem loopIter_cover (m : Model) {total seg : Int} (st : St)
    (hseg : 1 ≤ seg) (_hts : seg < total)
    (hm : ∀ s e : Int, (m s e).isSome = true)
    (hInv : Inv0 total seg st) (hlt : st.segStart < total) :
    (loopIter m total seg 0 st).2 = false ∧
    Inv0 total seg (loopIter m total seg 0 st).1 := by
  obtain ⟨hcov, hlast, h0, hmin⟩ := hInv
  have hne : st.segStart ≠ st.lastStart := by omega
  rw [loopIter_no_stall m st hne]
  dsimp only
  rcases processWindow_cases (s := st.segStart)
      (e := min (st.segStart + seg) total) m
      { st with noProg := 0, lastStart := st.segStart, iters := st.iters + 1 }
      (le_refl 0) (by omega) h0 hlt rfl rfl with
    ⟨hm', _⟩ | ⟨w, hm', hdeg, _⟩ | ⟨w, hm', hcom, hres⟩
  · have := hm st.segStart (min (st.segStart + seg) total)
    rw [hm'] at this
    simp at this
  · simp only [ite_self] at hdeg
    omega
  · rw [hres]
    simp only [ite_self, sub_zero, add_zero] at *
    refine ⟨trivial, ?_, ?_, ?_, ?_⟩
    · rw [progressUpdate_committed, progressUpdate_segStart]
      dsimp only
      exact covers_append_single hcov (by omega)
    · rw [progressUpdate_lastStart, progressUpdate_segStart]
      dsimp only
      omega
    · rw [progressUpdate_segStart]
      omega
    · rw [progressUpdate_segStart, progressUpdate_segCount]
      dsimp only
      have hc : st.segStart = st.segCount * seg := by omega
      have hr : (st.segCount + 1) * seg = st.segCount * seg + seg := by ring
      rw [hr]
      omega

/-- The zero-overlap loop maintains the tiling invariant to its end. -/
theorem loop_cover (m : Model) {total seg maxSeg : Int}
    (hseg : 1 ≤ seg) (hts : seg < total)
    (hm : ∀ s e : Int, (m s e).isSome = true) :
    ∀ (fuel : Nat) (st st' : St), Inv0 total seg st →
      loop m total seg 0 maxSeg fuel st = some st' →
      Inv0 total seg st' ∧ (total ≤ st'.segStart ∨ maxSeg ≤ st'.segCount) := by
  intro fuel
  induction fuel with
  | zero =>
    intro st st' _ h
    simp [loop] at h
  | succ fuel ih =>
    intro st st' hInv hrun
    rw [loop] at hrun
    by_cases hcond : st.segStart < total ∧ st.segCount < maxSeg
    · rw [if_pos hcond] at hrun
      have hstep := loopIter_cover m st hseg hts hm hInv hcond.1
      rcases hIter : loopIter m total seg 0 st with ⟨st1, b⟩
      rw [hIter] at hstep hrun
      dsimp only at hstep hrun
      obtain ⟨hbrk, hInv'⟩ := hstep
      subst hbrk
      dsimp only at hrun
      exact ih st1 st' hInv' hrun
    · rw [if_neg hcond] at hrun
      injection hrun with h
      subst h
      exact ⟨hInv, by omega⟩

/-- C1 amended: in chunking mode the committed effective ranges are
strictly increasing and pairwise non-overlapping, but their union is
`[0, total_length)` only in the overlap-free case: with
`overlap_length = 0` (and the expected segment count within the cap) and
no window failing, the ranges tile `[0, total_length)` exactly; with
`overlap_length > 0` a gap of `overlap_length` samples precedes each
interior committed range (see the counterexample), so positions there are
never written. -/
theorem committed_ranges_structure (m : Model) {total seg ov : Int}
    (hov : 0 ≤ ov) (hos : ov < seg) (hts : seg < total) :
    (∀ fuel : Nat,
      List.Pairwise (fun q r : Int × Int => q.2 ≤ r.1)
        (runCommitted (separateChunks m total seg ov fuel)) ∧
      ∀ q ∈ runCommitted (separateChunks m total seg ov fuel),
        0 ≤ q.1 ∧ q.1 < q.2 ∧ q.2 ≤ total) ∧
    (ov = 0 → (∀ s e : Int, (m s e).isSome = true) →
      pyCeilDiv total seg ≤ 1000 →
      ∀ fuel : Nat, runIsSome (separateChunks m total seg ov fuel) = true →
      runFinalStart (separateChunks m total seg ov fuel) = total ∧
      covers (runCommitted (separateChunks m total seg ov fuel)) 0 total ∧
      ∀ p : Int, 0 ≤ p → p < total →
        inRanges (runCommitted (separateChunks m total seg ov fuel)) p) := by
  constructor
  · intro fuel
    rw [separateChunks_chunking m (by omega) hts fuel]
    rcases hpr : m 0 (min seg total) with _ | w
    · dsimp only [runCommitted]
      exact ⟨List.Pairwise.nil, by simp⟩
    · dsimp only
      cases hloop : loop m total seg ov (maxSegOf total seg ov) fuel
          (initSt (min seg total)) with
      | none =>
        dsimp only [runCommitted]
        exact ⟨List.Pairwise.nil, by simp⟩
      | some st' =>
        obtain ⟨hI, _, _, _, _, _⟩ :=
          loop_invariant m hov hos hts fuel _ st' (initSt_inv hov hos hts) hloop
        obtain ⟨_, _, _, ⟨apw, abnd⟩, _, _, _, _, _, _⟩ := hI
        dsimp only [runCommitted, mkOutcome]
        exact ⟨apw, abnd⟩
  · intro hov0 hm hcap fuel hsome
    subst hov0
    rw [separateChunks_chunking m (by omega) hts fuel] at hsome ⊢
    rcases hpr : m 0 (min seg total) with _ | w
    · have := hm 0 (min seg total)
      rw [hpr] at this
      simp at this
    · rw [hpr] at hsome
      dsimp only at hsome ⊢
      cases hloop : loop m total seg 0 (maxSegOf total seg 0) fuel
          (initSt (min seg total)) with
      | none =>
        rw [hloop] at hsome
        simp [runIsSome] at hsome
      | some st' =>
        have hInv0 : Inv0 total seg (initSt (min seg total)) := by
          unfold Inv0 initSt covers
          dsimp only
          refine ⟨rfl, by norm_num, le_refl 0, ?_⟩
          have : (0:Int) * seg = 0 := zero_mul seg
          omega
        obtain ⟨⟨hcov, _, _, hmin⟩, hexit⟩ :=
          loop_cover m (by omega) hts hm fuel _ st' hInv0 hloop
        have hfin : st'.segStart = total := by
          rcases hexit with h | h
          · omega
          · by_contra hne
            have hlt : st'.segStart < total := by omega
            have hsS : st'.segStart = st'.segCount * seg := by omega
            have hcap2 : pyCeilDiv total seg ≤ st'.segCount := by
              unfold maxSegOf at h
              have h2 : pyCeilDiv (total - 0) (seg - 0) = pyCeilDiv total seg := by
                rw [show total - (0:Int) = total from by omega,
                    show seg - (0:Int) = seg from by omega]
              have h1 : 1 ≤ pyCeilDiv total seg :=
                pyCeilDiv_pos (by omega) (by omega)
              rw [h2] at h
              omega
            have hts2 : total ≤ seg * pyCeilDiv total seg :=
              le_mul_pyCeilDiv (by omega)
            have hmul : pyCeilDiv total seg * seg ≤ st'.segCount * seg :=
              mul_le_mul_of_nonneg_right hcap2 (by omega)
            have hcomm : seg * pyCeilDiv total seg =
                pyCeilDiv total seg * seg := mul_comm _ _
            omega
        rw [hfin] at hcov
        dsimp only [runFinalStart, runCommitted, mkOutcome]
        exact ⟨hfin, hcov, fun p hp0 hpt => covers_inRanges hcov hp0 hpt⟩

theorem committed_ranges_structure_witness :
    runFinalStart (separateChunks mOnes 30 10 0 100) = 30 ∧
    covers (runCommitted (separateChunks mOnes 30 10 0 100)) 0 30 :=
  ⟨((committed_ranges_structure mOnes (by decide) (by decide) (by decide)).2
      rfl (fun _ _ => rfl) (by decide) 100 (by decide)).1,
   ((committed_ranges_structure mOnes (by decide) (by decide) (by decide)).2
      rfl (fun _ _ => rfl) (by decide) 100 (by decide)).2.1⟩

/-! ### Counterexample theorems. -/

/-- C1 counterexample: in chunking mode with `total = 30`, `seg = 10`,
`ov = 2` and a model that never fails, the committed effective ranges are
`[0,8), [10,16), [18,24), [26,30)`: position 8 of `[0, 30)` is inside no
committed range, so their union is not `[0, total)` — contrary to the
claim, a gap of `overlap_length` samples is left before each interior
window's effective range. -/
theorem chunk_union_counterexample :
    runCommitted (separateChunks mOnes 30 10 2 100) =
      [(0, 8), (10, 16), (18, 24), (26, 30)] ∧
    ((0:Int) ≤ 8 ∧ (8:Int) < 30) ∧
    ¬ inRanges (runCommitted (separateChunks mOnes 30 10 2 100)) 8 := by
  decide

/-- C2 counterexample: for `total = 20`, `seg = 10`, `ov = 11` (so
`overlap_length > window_length`) the call raises nothing at all: it
returns an output, and the probe model call was made — no
`ConfigurationError` (nor any error) is raised before the model is
invoked. -/
theorem config_error_counterexample :
    runIsOk (separateChunks mOnes 20 10 11 50) = true ∧
    runCalls (separateChunks mOnes 20 10 11 50) = [(0, 10)] := by
  decide

/-- C3 counterexample: for `total = 10`, `seg = 9`, `ov = 8` with a model
that never fails, `max_segments = min(2 * ceil((10-8)/1), 1000) = 4`, yet
the chunking loop executes 10 iterations (the iterations skipped by the
degenerate-effective-region check do not increment `segment_count`, which
is what the cap bounds), so the loop is not bounded by
`min(2 * expected_segment_count, 1000)` iterations. -/
theorem iteration_cap_counterexample :
    runIters (separateChunks mOnes 10 9 8 50) = 10 ∧
    maxSegOf 10 9 8 = 4 ∧
    runIsOk (separateChunks mOnes 10 9 8 50) = true := by
  decide

/-- C4 counterexample: with `total = 30`, `seg = 10`, `ov = 0` and a model
that fails exactly on the window starting at sample 0, the whole run
reports overall failure (`separate_tracks` returns `None`): the failing
first window is not absorbed — its failure hits the pre-loop dimension
probe, which is outside the `try`, even though the model succeeds on
every other window, so it is not the case that only an all-window failure
aborts the run. -/
theorem single_window_failure_counterexample :
    overallFailed (separateTracks mFailAt0 30 10 0 100) = true ∧
    (mFailAt0 10 20).isSome = true ∧ (mFailAt0 20 30).isSome = true := by
  decide

end AudioProc
